import Mathlib

/-!
# Verification development for `verify_scholar_papers.py`

A shallow embedding of the authorship-verification script
`src/Googlescholar/verify_scholar_papers.py` (text normalizer, similarity
scorer, bibliographic source adapters, identity bonus, verification engine,
batch reporting), together with theorems settling the specification claims.

Modelling conventions:
* Python strings are `List Char`; the embedding models the ASCII fragment of
  Python's Unicode string semantics (`str.lower`, `\w`, `\s`, `str.split`),
  which is the fragment all claims are about.
* Python floats are `ℚ`.  `round(x, n)` is modelled as round-half-up on the
  exact rational; the claims proved here (bounds, two-decimal granularity)
  do not depend on the tie-breaking direction of the rounding.
* The `rapidfuzz` similarity primitives `fuzz.partial_ratio` and
  `fuzz.token_set_ratio` are external library calls, so they appear as
  function parameters `pr`/`tsr` of type `SimFn`; where a claim needs the
  library's guarantee that ratios are non-negative this is an explicit
  hypothesis.
* Fallible Python code (IndexError, KeyError, ZeroDivisionError, network
  failures) is modelled with `Option`: `none` is "this code path raises /
  fails".
-/

namespace Scholar

/-- Python strings, as lists of characters. -/
abbrev Str := List Char

/-- An abstract string-similarity metric (the type of `fuzz.partial_ratio`
and `fuzz.token_set_ratio`, which live in the external `rapidfuzz`
library). -/
abbrev SimFn := Str → Str → ℚ

/-- The ASCII fragment of Python's whitespace class (`\s`, and the
separators of `str.split()` with no arguments): space, tab, newline,
carriage return, vertical tab, form feed. -/
def isPySpace (c : Char) : Bool :=
  c = ' ' || c = '\t' || c = '\n' || c = '\r' || c = '\x0b' || c = '\x0c'

/-- The ASCII fragment of Python's regex word class `\w`: alphanumeric
characters and the underscore. -/
def isWordChar (c : Char) : Bool :=
  c.isAlphanum || c = '_'

/-- One character of `re.sub(r"[^\w\s]", " ", text)` (line 53): a character
that is neither a word character nor whitespace is replaced by a single
space; all other characters are kept. -/
def charSub (c : Char) : Char :=
  if isWordChar c || isPySpace c then c else ' '

/-- Python's `str.split()` generalised over the separator class `p`:
the maximal runs of non-separator characters, in order, with no empty
tokens.  (Structural formulation with one-character lookahead, so that it
evaluates by `decide`.) -/
def genSplit (p : Char → Bool) : Str → List Str
  | [] => []
  | c :: cs =>
    if p c then genSplit p cs
    else
      match cs with
      | [] => [[c]]
      | d :: _ =>
        if p d then [c] :: genSplit p cs
        else
          match genSplit p cs with
          | [] => [[c]]
          | t :: ts => (c :: t) :: ts

/-- `text.split()` (line 54): split on runs of whitespace, dropping empty
tokens. -/
def pySplit (s : Str) : List Str := genSplit isPySpace s

/-- Python's `str.strip()`: remove leading and trailing whitespace. -/
def pyStrip (s : Str) : Str :=
  ((s.dropWhile isPySpace).reverse.dropWhile isPySpace).reverse

/-- `normalize` (lines 49-54): empty/absent input gives the empty string;
otherwise lower-case, replace each character matching `[^\w\s]` by a
space, and re-join the whitespace-split tokens with single spaces. -/
def normalize (s : Str) : Str :=
  if s = [] then []
  else List.intercalate [' '] (pySplit ((s.map Char.toLower).map charSub))

/-- `last_name` (lines 56-57): `normalize(full_name).split()[-1]`.
The `[-1]` index raises `IndexError` when the split list is empty, which is
modelled by `Option.getLast?` being `none`. -/
def last_name (full_name : Str) : Option Str :=
  (pySplit (normalize full_name)).getLast?

/-- Python's `max(scores) if scores else 0` (line 72). -/
def maxOr0 : List ℚ → ℚ
  | [] => 0
  | s :: rest => rest.foldl max s

/-- The score list built by the loop of `author_name_score` (lines 64-71):
for each author, the partial ratios of the normalized author string against
the full normalized name, the last name, and `"<initial> <last>"`. -/
def author_variant_scores (pr : SimFn) (full lastN : Str) (ini : Char)
    (authors : List Str) : List ℚ :=
  authors.flatMap (fun a0 =>
    let a := normalize a0
    [pr full a, pr lastN a, pr (ini :: ' ' :: lastN) a])

/-- `author_name_score` (lines 59-72).  `last = last_name(full_name)` and
`initial = full[0]` both raise `IndexError` exactly when the normalized
name is empty; this is the `none` case. -/
def author_name_score (pr : SimFn) (full_name : Str) (authors : List Str) :
    Option ℚ :=
  let full := normalize full_name
  match last_name full_name, full.head? with
  | some lastN, some ini =>
      some (maxOr0 (author_variant_scores pr full lastN ini authors))
  | _, _ => none

/-- `title_score` (lines 74-75): token-set ratio of the two normalized
strings. -/
def title_score (tsr : SimFn) (a b : Str) : ℚ :=
  tsr (normalize a) (normalize b)

/-- `round(q, 2)` on the exact rational. -/
def round2 (q : ℚ) : ℚ := (round (q * 100) : ℤ) / 100

/-- `round(q, 1)` on the exact rational. -/
def round1 (q : ℚ) : ℚ := (round (q * 10) : ℤ) / 10

/-- `cap_score` (lines 77-78): `min(round(score, 2), 100.0)`. -/
def cap_score (score : ℚ) : ℚ := min (round2 score) 100

/-- Truthiness of an optional Python string: `None` and `""` are falsy. -/
def truthyStr : Option Str → Bool
  | none => false
  | some s => !s.isEmpty

/-! ### Run replacement (for the spec's description of `normalize`) -/

/-- Replace every maximal run of characters satisfying `p` by a single
space (structural formulation: the space is emitted at the last character
of the run). -/
def replaceRuns (p : Char → Bool) : Str → Str
  | [] => []
  | c :: cs =>
    if p c then
      match cs with
      | [] => [' ']
      | d :: _ => if p d then replaceRuns p cs else ' ' :: replaceRuns p cs
    else c :: replaceRuns p cs

/-- The separator class after character substitution: a character is a
separator of the rejoin step iff it is a non-word character or
whitespace. -/
def sepClass (c : Char) : Bool := !isWordChar c || isPySpace c

/-- Non-word non-whitespace characters: the class replaced by
`re.sub(r"[^\w\s]", " ", ·)`. -/
def subClass (c : Char) : Bool := !(isWordChar c || isPySpace c)

/-- The normalizer exactly as claim C7 words it: lower-case the input,
replace every run of non-alphanumeric, non-whitespace characters with a
single space, collapse repeated whitespace to single spaces and trim (the
collapse-and-trim step is the rejoin of the whitespace-split tokens with
single spaces); empty input yields the empty string.  Note the character
class here is plain "alphanumeric", without the underscore that Python's
`\w` also keeps. -/
def normalize_spec_alnum (s : Str) : Str :=
  if s = [] then []
  else List.intercalate [' ']
    (genSplit isPySpace
      (replaceRuns (fun c => !(c.isAlphanum || isPySpace c)) (s.map Char.toLower)))

/-- The amended claim C7 normalizer: identical to `normalize_spec_alnum`
except that the replaced run class is "neither a word character
(alphanumeric or underscore) nor whitespace", i.e. `subClass`. -/
def normalize_spec_word (s : Str) : Str :=
  if s = [] then []
  else List.intercalate [' ']
    (genSplit isPySpace (replaceRuns subClass (s.map Char.toLower)))

/-! ### Data model of the verification engine -/

/-- The `source` label of a candidate / `matched_source` of a result:
`"Crossref"`, `"SemanticScholar"`, or `"Google Scholar only"` (the
no-candidate marker used by `build_result`). -/
inductive SourceTag
  | crossref
  | semanticScholar
  | googleScholarOnly
deriving DecidableEq

/-- A candidate record as built by the adapters (lines 96-108 and 129-134):
`title`, `authors`, optional `doi`, the ORCID list (present only for
Crossref records; Semantic Scholar dicts have no `"orcid"` key, modelled
as `none`), and the source label. -/
structure Candidate where
  title : Str
  authors : List Str
  doi : Option Str
  orcid : Option (List Str)
  source : SourceTag
deriving DecidableEq

/-- The classification labels of lines 198-205. -/
inductive Label
  | AUTHENTIC
  | LIKELY_AUTHENTIC
  | SCHOLAR_CLAIMED
  | LIKELY_MISATTRIBUTED
deriving DecidableEq

/-- The verification-strength labels of lines 157-162:
`"Strong (ORCID + DOI)"`, `"Moderate (Name + DOI)"`,
`"Basic (Scholar-only)"`. -/
inductive Strength
  | strong
  | moderate
  | basic
deriving DecidableEq

/-- The two `reason` strings: `"No external bibliographic record found"`
(line 174) and `"Automated bibliographic verification"` (line 212). -/
inductive Reason
  | noExternalRecord
  | automatedVerification
deriving DecidableEq

/-- The result dict built by `build_result` (lines 216-226). -/
structure VerificationResult where
  claimed_title : Str
  matched_title : Str
  matched_source : SourceTag
  doi : Option Str
  confidence_score : ℚ
  classification : Label
  verification_strength : Strength
  reason : Reason
deriving DecidableEq

/-! ### Bibliographic source adapters -/

/-- One author dict of a Crossref item: `given`/`family`/`ORCID` keys, each
possibly absent. -/
structure CrossrefAuthor where
  given : Option Str
  family : Option Str
  orcid : Option Str
deriving DecidableEq

/-- One Crossref item (`r.json()["message"]["items"]` element): the
`"title"` value (a JSON list of strings, possibly absent), the `"author"`
list (possibly absent) and the `"DOI"` value (possibly absent). -/
structure CrossrefItem where
  titleList : Option (List Str)
  author : Option (List CrossrefAuthor)
  doi : Option Str
deriving DecidableEq

/-- The Python for-loop body over items or hits, with an exception anywhere
aborting the whole loop: `none` as soon as `f` fails, otherwise the mapped
list in order. -/
def mapOrFail (f : α → Option β) : List α → Option (List β)
  | [] => some []
  | a :: as =>
    match f a, mapOrFail f as with
    | some b, some bs => some (b :: bs)
    | _, _ => none

/-- One iteration of the Crossref result loop (lines 95-108).
`i.get("title", [""])[0]` raises `IndexError` (hence `none`) when the item
has a `"title"` key holding an empty list; otherwise the candidate dict is
built: authors are `f"{given} {family}".strip()`, the ORCID list keeps the
truthy `"ORCID"` values, the source label is `"Crossref"`. -/
def crossrefMapItem (i : CrossrefItem) : Option Candidate :=
  match (i.titleList.getD [[]]).head? with
  | none => none
  | some t =>
      some
        { title := t
          authors := (i.author.getD []).map (fun a =>
            pyStrip ((a.given.getD []) ++ ' ' :: (a.family.getD [])))
          doi := i.doi
          orcid := some ((i.author.getD []).filterMap (fun a =>
            match a.orcid with
            | some s => if s.isEmpty then none else some s
            | none => none))
          source := SourceTag.crossref }

/-- `crossref_lookup` (lines 84-111).  The input is the outcome of the HTTP
exchange: `none` covers a raised exception, a non-2xx status and an
unparsable body (all collapse to `[]` via lines 91-92 and 110-111); `some
items` is a successfully parsed `message.items` list.  An exception while
mapping an item (the `IndexError` of line 97) discards all results. -/
def crossref_lookup (resp : Option (List CrossrefItem)) : List Candidate :=
  match resp with
  | none => []
  | some items => (mapOrFail crossrefMapItem items).getD []

/-- One author dict of a Semantic Scholar paper; `a["name"]` raises
`KeyError` when absent. -/
structure SemanticAuthor where
  name : Option Str
deriving DecidableEq

/-- The `"externalIds"` dict of a Semantic Scholar paper. -/
structure SemanticIds where
  doi : Option Str
deriving DecidableEq

/-- One Semantic Scholar paper dict (`r.json().get("data", [])` element). -/
structure SemanticPaper where
  title : Option Str
  authors : Option (List SemanticAuthor)
  externalIds : Option SemanticIds
deriving DecidableEq

/-- One iteration of the Semantic Scholar result loop (lines 128-134):
`a["name"]` raises `KeyError` (hence `none`) for an author dict without a
name; `d.get("title", "")` and `d.get("externalIds", {}).get("DOI")`
default to `""`/`None`.  The built dict has no `"orcid"` key. -/
def semanticMapItem (d : SemanticPaper) : Option Candidate :=
  (mapOrFail (fun a => a.name) (d.authors.getD [])).map (fun names =>
    { title := d.title.getD []
      authors := names
      doi := (d.externalIds.getD ⟨none⟩).doi
      orcid := none
      source := SourceTag.semanticScholar })

/-- `semantic_lookup` (lines 113-137), same failure model as
`crossref_lookup`. -/
def semantic_lookup (resp : Option (List SemanticPaper)) : List Candidate :=
  match resp with
  | none => []
  | some papers => (mapOrFail semanticMapItem papers).getD []

/-! ### Identity bonus and verification strength -/

/-- `id_bonus` (lines 143-151).  `hit` is a candidate dict, which is always
non-empty (hence truthy) at every call site, so the `and hit` conjunct of
line 145 is vacuous.  `orcid in (hit.get("orcid") or [])` is membership of
the claimed ORCID in the candidate's ORCID list, with a missing key or
empty list treated as `[]`. -/
def id_bonus (orcid scopus_id researcher_id : Option Str) (hit : Candidate) : ℚ :=
  let b1 : ℚ := if truthyStr orcid ∧ orcid.getD [] ∈ hit.orcid.getD [] then 15 else 0
  let b2 : ℚ := if truthyStr scopus_id then b1 + 5 else b1
  let b3 : ℚ := if truthyStr researcher_id then b2 + 5 else b2
  min b3 25

/-- `verification_strength` (lines 157-162). -/
def verification_strength (orcid : Option Str) (doi_present : Bool) : Strength :=
  if truthyStr orcid ∧ doi_present then Strength.strong
  else if doi_present then Strength.moderate
  else Strength.basic

/-! ### Verification engine -/

/-- `build_result` (lines 216-226).  With `best = None` the matched title
is `""`, the source is `"Google Scholar only"` and the `doi` field is the
empty string. -/
def build_result (pub_title : Str) (best : Option Candidate) (score : ℚ)
    (label : Label) (reason : Reason) (strength : Strength) : VerificationResult :=
  { claimed_title := pub_title
    matched_title := match best with | some b => b.title | none => []
    matched_source := match best with | some b => b.source | none => SourceTag.googleScholarOnly
    doi := match best with | some b => b.doi | none => some []
    confidence_score := score
    classification := label
    verification_strength := strength
    reason := reason }

/-- The loop state of lines 178-196: `best, best_score, best_author_score,
best_doi`. -/
structure BestState where
  best : Option Candidate
  best_score : ℚ
  best_author_score : ℚ
  best_doi : Bool
deriving DecidableEq

/-- The composite score of lines 185-190 for one candidate, given its
author-name score. -/
def candScore (tsr : SimFn) (pub_title : Str) (orcid scopus_id researcher_id : Option Str)
    (c : Candidate) (ascore : ℚ) : ℚ :=
  0.65 * title_score tsr pub_title c.title + 0.25 * ascore +
    (if truthyStr c.doi then (5 : ℚ) else 0) +
    id_bonus orcid scopus_id researcher_id c

/-- One iteration of the candidate loop (lines 180-196); `none` when
`author_name_score` raises. -/
def step (pr tsr : SimFn) (pub_title author_name : Str)
    (orcid scopus_id researcher_id : Option Str) (st : BestState) (c : Candidate) :
    Option BestState :=
  (author_name_score pr author_name c.authors).map (fun ascore =>
    let score := candScore tsr pub_title orcid scopus_id researcher_id c ascore
    if score > st.best_score then ⟨some c, score, ascore, truthyStr c.doi⟩ else st)

/-- The candidate loop of lines 180-196 (left fold of `step`, aborting on a
raised exception). -/
def best_fold (pr tsr : SimFn) (pub_title author_name : Str)
    (orcid scopus_id researcher_id : Option Str) :
    BestState → List Candidate → Option BestState
  | st, [] => some st
  | st, c :: cs =>
    match step pr tsr pub_title author_name orcid scopus_id researcher_id st c with
    | none => none
    | some st' => best_fold pr tsr pub_title author_name orcid scopus_id researcher_id st' cs

/-- The composite score of a candidate as an outcome (`none` when computing
it raises inside `author_name_score`). -/
def composite (pr tsr : SimFn) (pub_title author_name : Str)
    (orcid scopus_id researcher_id : Option Str) (c : Candidate) : Option ℚ :=
  (author_name_score pr author_name c.authors).map
    (candScore tsr pub_title orcid scopus_id researcher_id c)

/-- `verify_publication` (lines 168-214).  `cr`/`sr` are the outcomes of the
two HTTP exchanges triggered by line 169. -/
def verify_publication (pr tsr : SimFn) (cr : Option (List CrossrefItem))
    (sr : Option (List SemanticPaper)) (pub_title author_name : Str)
    (orcid scopus_id researcher_id : Option Str) : Option VerificationResult :=
  let candidates := crossref_lookup cr ++ semantic_lookup sr
  if candidates = [] then
    some (build_result pub_title none 85 Label.SCHOLAR_CLAIMED
      Reason.noExternalRecord (verification_strength orcid false))
  else
    (best_fold pr tsr pub_title author_name orcid scopus_id researcher_id
        ⟨none, -1, 0, false⟩ candidates).map (fun st =>
      let label :=
        if st.best_author_score ≥ 85 then Label.AUTHENTIC
        else if st.best_score ≥ 75 then Label.LIKELY_AUTHENTIC
        else if st.best_score ≥ 60 then Label.SCHOLAR_CLAIMED
        else Label.LIKELY_MISATTRIBUTED
      build_result pub_title st.best (cap_score st.best_score) label
        Reason.automatedVerification (verification_strength orcid st.best_doi))

/-! ### Batch reporting (`main`, lines 279-298) -/

/-- `results[0].keys()` (line 292): the fixed column order of the report. -/
def result_keys (_ : VerificationResult) : List String :=
  ["claimed_title", "matched_title", "matched_source", "doi",
   "confidence_score", "classification", "verification_strength", "reason"]

/-- The report and summary produced by `main` after fetching the
publication list. -/
structure BatchReport where
  fieldnames : List String
  rows : List VerificationResult
  percent : ℚ
deriving DecidableEq

/-- The tail of `main` (lines 279-298): verify each publication in order,
count `AUTHENTIC` ones, write the CSV (whose field names come from
`results[0].keys()`, an out-of-range access on an empty list, modelled by
`Option.bind` on `head?`) and compute the summary percentage
`round((authentic_count / len(results)) * 100, 1)` (a `ZeroDivisionError`
when `results` is empty, modelled by the explicit length guard).  `env`
maps each title to the outcomes of its two adapter HTTP exchanges. -/
def main_report (pr tsr : SimFn)
    (env : Str → Option (List CrossrefItem) × Option (List SemanticPaper))
    (author_name : Str) (orcid scopus_id researcher_id : Option Str)
    (pubs : List Str) : Option BatchReport :=
  (mapOrFail (fun t =>
      verify_publication pr tsr (env t).1 (env t).2 t author_name
        orcid scopus_id researcher_id) pubs).bind (fun results =>
    let authentic_count := results.countP (fun r => decide (r.classification = Label.AUTHENTIC))
    results.head?.bind (fun r0 =>
      if results.length = 0 then none
      else
        some { fieldnames := result_keys r0
               rows := results
               percent := round1 (((authentic_count : ℚ) / (results.length : ℚ)) * 100) }))

/-! ### The candidate-loop invariant -/

/-- Invariant of the loop of lines 180-196 after processing `processed`:
either nothing ever beat the initial `best_score = -1`, or the state holds
the first candidate attaining the strict maximum of the composite scores
seen so far, together with its author score and DOI presence. -/
def FoldInv (pr tsr : SimFn) (pt an : Str) (o sc rs : Option Str)
    (processed : List Candidate) (st : BestState) : Prop :=
  (st = ⟨none, -1, 0, false⟩ ∧
    ∀ x ∈ processed, ∀ sx, composite pr tsr pt an o sc rs x = some sx → sx ≤ -1) ∨
  (∃ c l1 l2 a,
    processed = l1 ++ c :: l2 ∧
    st.best = some c ∧
    author_name_score pr an c.authors = some a ∧
    st.best_author_score = a ∧
    st.best_doi = truthyStr c.doi ∧
    st.best_score = candScore tsr pt o sc rs c a ∧
    (∀ x ∈ l1, ∀ sx, composite pr tsr pt an o sc rs x = some sx → sx < st.best_score) ∧
    (∀ x ∈ l2, ∀ sx, composite pr tsr pt an o sc rs x = some sx → sx ≤ st.best_score))

/-- A concrete Crossref item used in concrete evaluations: one hit with a
title, no authors and a DOI. -/
def itemA : CrossrefItem :=
  { titleList := some [['t']], author := some [], doi := some ['d'] }

/-- The candidate that `crossrefMapItem` builds from `itemA`. -/
def candA : Candidate :=
  { title := ['t'], authors := [], doi := some ['d'], orcid := some []
    source := SourceTag.crossref }

/-! ### Character-level lemmas -/

theorem toNat_ofNat_valid (n : Nat) (h : n.isValidChar) :
    (Char.ofNat n).toNat = n := by
  rw [Char.ofNat, dif_pos h]
  simp [Char.ofNatAux, Char.toNat, UInt32.toNat, BitVec.toNat_ofNatLt]

/-- ASCII lower-casing is idempotent. -/
theorem toLower_toLower (c : Char) : c.toLower.toLower = c.toLower := by
  unfold Char.toLower
  by_cases h : c.toNat ≥ 65 ∧ c.toNat ≤ 90
  · have hv : (c.toNat + 32).isValidChar := by
      left
      have := h.2
      omega
    have hn : (Char.ofNat (c.toNat + 32)).toNat = c.toNat + 32 :=
      toNat_ofNat_valid _ hv
    rw [if_pos h, hn, if_neg (by omega)]
  · rw [if_neg h, if_neg h]

theorem word_not_space {c : Char} (h : isWordChar c = true) :
    isPySpace c = false := by
  cases hx : isPySpace c
  · rfl
  · exfalso
    simp only [isPySpace, Bool.or_eq_true, decide_eq_true_eq] at hx
    rcases hx with (((((h1|h1)|h1)|h1)|h1)|h1) <;> subst h1 <;> revert h <;> decide

theorem isPySpace_charSub (c : Char) :
    isPySpace (charSub c) = (!isWordChar c || isPySpace c) := by
  unfold charSub
  cases hw : isWordChar c <;> cases hs : isPySpace c
  · have hsp : isPySpace ' ' = true := by decide
    simp [hw, hs, hsp]
  · simp [hw, hs]
  · simp [hw, hs, word_not_space hw]
  · simp [hw, hs]

theorem charSub_of_not_sep {c : Char} (h : (!isWordChar c || isPySpace c) = false) :
    charSub c = c := by
  unfold charSub
  cases hw : isWordChar c <;> simp [hw] at h ⊢

/-- A non-whitespace output character of `charSub` is a word character that
`charSub` leaves unchanged. -/
theorem charSub_image {x c : Char} (hc : c = charSub x) (hns : isPySpace c = false) :
    isWordChar c = true ∧ c = x := by
  unfold charSub at hc
  by_cases h : (isWordChar x || isPySpace x) = true
  · rw [if_pos h] at hc
    subst hc
    rcases Bool.or_eq_true _ _ |>.mp h with hw | hs
    · exact ⟨hw, rfl⟩
    · rw [hs] at hns
      exact absurd hns (by simp)
  · rw [if_neg h] at hc
    subst hc
    exfalso
    revert hns
    decide

/-! ### `genSplit` structure lemmas -/

theorem genSplit_nil (p : Char → Bool) : genSplit p [] = [] := rfl

theorem genSplit_sep {p : Char → Bool} {c : Char} (h : p c = true) (cs : Str) :
    genSplit p (c :: cs) = genSplit p cs := by
  simp [genSplit, h]

theorem genSplit_singleton {p : Char → Bool} {c : Char} (h : p c = false) :
    genSplit p [c] = [[c]] := by
  simp [genSplit, h]

theorem genSplit_tok_sep {p : Char → Bool} {c d : Char} (hc : p c = false)
    (hd : p d = true) (ds : Str) :
    genSplit p (c :: d :: ds) = [c] :: genSplit p (d :: ds) := by
  simp [genSplit, hc, hd]

theorem genSplit_tok_tok {p : Char → Bool} {c d : Char} (hc : p c = false)
    (hd : p d = false) (ds : Str) :
    genSplit p (c :: d :: ds) =
      match genSplit p (d :: ds) with
      | [] => [[c]]
      | t :: ts => (c :: t) :: ts := by
  simp [genSplit, hc, hd]

/-- When the input starts with a non-separator, the split starts with a token
beginning with that character. -/
theorem genSplit_head {p : Char → Bool} :
    ∀ (cs : Str) {c : Char}, p c = false →
      ∃ t ts, genSplit p (c :: cs) = (c :: t) :: ts := by
  intro cs
  induction cs with
  | nil =>
    intro c hc
    exact ⟨[], [], genSplit_singleton hc⟩
  | cons d ds ih =>
    intro c hc
    cases hd : p d
    · obtain ⟨t', ts', h'⟩ := ih hd
      refine ⟨d :: t', ts', ?_⟩
      rw [genSplit_tok_tok hc hd, h']
    · exact ⟨[], genSplit p (d :: ds), genSplit_tok_sep hc hd ds⟩

/-- Every token of `genSplit` is non-empty and consists of non-separator
characters drawn from the input. -/
theorem genSplit_tokens {p : Char → Bool} :
    ∀ (l : Str) (t : Str), t ∈ genSplit p l →
      t ≠ [] ∧ ∀ c ∈ t, p c = false ∧ c ∈ l := by
  intro l
  induction l with
  | nil =>
    intro t ht
    exact absurd ht (by simp [genSplit_nil])
  | cons c cs ih =>
    intro t ht
    cases hc : p c
    · cases cs with
      | nil =>
        rw [genSplit_singleton hc] at ht
        rcases List.mem_singleton.mp ht with rfl
        refine ⟨by simp, ?_⟩
        intro x hx
        rcases List.mem_singleton.mp hx with rfl
        exact ⟨hc, List.mem_singleton_self _⟩
      | cons d ds =>
        cases hd : p d
        · obtain ⟨t', ts', h'⟩ := genSplit_head ds hd
          rw [genSplit_tok_tok hc hd, h'] at ht
          rcases List.mem_cons.mp ht with rfl | htl
          · have hmem : (d :: t') ∈ genSplit p (d :: ds) := by
              rw [h']
              exact List.mem_cons_self _ _
            obtain ⟨-, hchars⟩ := ih _ hmem
            refine ⟨by simp, ?_⟩
            intro x hx
            rcases List.mem_cons.mp hx with rfl | hx'
            · exact ⟨hc, List.mem_cons_self _ _⟩
            · obtain ⟨hp, hm⟩ := hchars x hx'
              exact ⟨hp, List.mem_cons_of_mem _ hm⟩
          · have hmem : t ∈ genSplit p (d :: ds) := by
              rw [h']
              exact List.mem_cons_of_mem _ htl
            obtain ⟨hne, hchars⟩ := ih _ hmem
            refine ⟨hne, ?_⟩
            intro x hx
            obtain ⟨hp, hm⟩ := hchars x hx
            exact ⟨hp, List.mem_cons_of_mem _ hm⟩
        · rw [genSplit_tok_sep hc hd] at ht
          rcases List.mem_cons.mp ht with rfl | htl
          · refine ⟨by simp, ?_⟩
            intro x hx
            rcases List.mem_singleton.mp hx with rfl
            exact ⟨hc, List.mem_cons_self _ _⟩
          · obtain ⟨hne, hchars⟩ := ih _ htl
            refine ⟨hne, ?_⟩
            intro x hx
            obtain ⟨hp, hm⟩ := hchars x hx
            exact ⟨hp, List.mem_cons_of_mem _ hm⟩
    · rw [genSplit_sep hc] at ht
      obtain ⟨hne, hchars⟩ := ih _ ht
      refine ⟨hne, ?_⟩
      intro x hx
      obtain ⟨hp, hm⟩ := hchars x hx
      exact ⟨hp, List.mem_cons_of_mem _ hm⟩

/-- A non-empty all-non-separator string is a single token. -/
theorem genSplit_no_sep {p : Char → Bool} :
    ∀ (t : Str), t ≠ [] → (∀ c ∈ t, p c = false) → genSplit p t = [t] := by
  intro t
  induction t with
  | nil => intro h; exact absurd rfl h
  | cons c cs ih =>
    intro _ hall
    have hc : p c = false := hall c (List.mem_cons_self _ _)
    cases cs with
    | nil => exact genSplit_singleton hc
    | cons d ds =>
      have hd : p d = false := hall d (by simp)
      have hrec : genSplit p (d :: ds) = [d :: ds] := by
        refine ih (by simp) ?_
        intro x hx
        exact hall x (List.mem_cons_of_mem _ hx)
      rw [genSplit_tok_tok hc hd, hrec]

/-- Splitting `t ++ sep :: r` where `t` is a clean token: the token is peeled
off and the rest is split. -/
theorem genSplit_token_append {p : Char → Bool} {x : Char} (hx : p x = true) :
    ∀ (t : Str), t ≠ [] → (∀ c ∈ t, p c = false) →
      ∀ r, genSplit p (t ++ x :: r) = t :: genSplit p r := by
  intro t
  induction t with
  | nil => intro h; exact absurd rfl h
  | cons c cs ih =>
    intro _ hall r
    have hc : p c = false := hall c (List.mem_cons_self _ _)
    cases cs with
    | nil =>
      rw [List.singleton_append, genSplit_tok_sep hc hx, genSplit_sep hx]
    | cons d ds =>
      have hd : p d = false := hall d (by simp)
      have hrec : genSplit p ((d :: ds) ++ x :: r) = (d :: ds) :: genSplit p r := by
        refine ih (by simp) ?_ r
        intro y hy
        exact hall y (List.mem_cons_of_mem _ hy)
      rw [show (c :: d :: ds) ++ x :: r = c :: d :: (ds ++ x :: r) from rfl,
        genSplit_tok_tok hc hd,
        show d :: (ds ++ x :: r) = (d :: ds) ++ x :: r from rfl, hrec]

/-! ### `intercalate` helpers -/

theorem ic_nil (sep : Char) : List.intercalate [sep] ([] : List Str) = [] := rfl

theorem ic_single (sep : Char) (t : Str) : List.intercalate [sep] [t] = t := by
  simp [List.intercalate]

theorem ic_cons_cons (sep : Char) (t t' : Str) (ts : List Str) :
    List.intercalate [sep] (t :: t' :: ts) =
      t ++ sep :: List.intercalate [sep] (t' :: ts) := by
  simp [List.intercalate, List.intersperse_cons_cons]

theorem mem_ic {sep : Char} :
    ∀ (ts : List Str) (c : Char), c ∈ List.intercalate [sep] ts →
      c = sep ∨ ∃ t ∈ ts, c ∈ t := by
  intro ts
  induction ts with
  | nil =>
    intro c hc
    exact absurd hc (by simp [ic_nil])
  | cons t ts ih =>
    intro c hc
    cases ts with
    | nil =>
      rw [ic_single] at hc
      exact Or.inr ⟨t, List.mem_cons_self _ _, hc⟩
    | cons t' ts' =>
      rw [ic_cons_cons] at hc
      rcases List.mem_append.mp hc with h1 | h2
      · exact Or.inr ⟨t, List.mem_cons_self _ _, h1⟩
      · rcases List.mem_cons.mp h2 with rfl | h3
        · exact Or.inl rfl
        · rcases ih c h3 with h4 | ⟨u, hu, hcu⟩
          · exact Or.inl h4
          · exact Or.inr ⟨u, List.mem_cons_of_mem _ hu, hcu⟩

/-- Joining clean tokens with a separator and re-splitting recovers the
tokens. -/
theorem genSplit_ic {p : Char → Bool} {sep : Char} (hsep : p sep = true) :
    ∀ (ts : List Str), (∀ t ∈ ts, t ≠ [] ∧ ∀ c ∈ t, p c = false) →
      genSplit p (List.intercalate [sep] ts) = ts := by
  intro ts
  induction ts with
  | nil =>
    intro _
    rw [ic_nil, genSplit_nil]
  | cons t ts ih =>
    intro hclean
    obtain ⟨hne, hchars⟩ := hclean t (List.mem_cons_self _ _)
    cases ts with
    | nil =>
      rw [ic_single]
      exact genSplit_no_sep t hne hchars
    | cons t' ts' =>
      rw [ic_cons_cons, genSplit_token_append hsep t hne hchars]
      rw [ih (fun u hu => hclean u (List.mem_cons_of_mem _ hu))]

/-! ### `normalize` lemmas -/

theorem normalize_nil : normalize [] = [] := rfl

theorem normalize_of_ne_nil {s : Str} (h : s ≠ []) :
    normalize s = List.intercalate [' '] (pySplit ((s.map Char.toLower).map charSub)) :=
  if_neg h

theorem charSub_of_word {c : Char} (h : isWordChar c = true) : charSub c = c := by
  unfold charSub
  rw [h]
  simp

/-- Every character of a normalized string is a space or a word character
fixed by both `Char.toLower` and `charSub`. -/
theorem normalize_chars {s : Str} {c : Char} (hc : c ∈ normalize s) :
    c = ' ' ∨ (isWordChar c = true ∧ c.toLower = c ∧ charSub c = c) := by
  by_cases hs : s = []
  · subst hs
    exact absurd hc (by simp [normalize_nil])
  · rw [normalize_of_ne_nil hs] at hc
    rcases mem_ic _ c hc with h1 | ⟨t, ht, hct⟩
    · exact Or.inl h1
    · obtain ⟨-, hchars⟩ := genSplit_tokens _ t ht
      obtain ⟨hns, hmem⟩ := hchars c hct
      obtain ⟨y, hy_mem, hy⟩ := List.mem_map.mp hmem
      obtain ⟨hword, hcy⟩ := charSub_image hy.symm hns
      obtain ⟨x, -, hx⟩ := List.mem_map.mp hy_mem
      have hlow : c.toLower = c := by
        rw [hcy, ← hx, toLower_toLower]
      exact Or.inr ⟨hword, hlow, charSub_of_word hword⟩

/-- Re-splitting a normalized string recovers the tokens of the underlying
cleaned string. -/
theorem pySplit_normalize (s : Str) :
    pySplit (normalize s) = pySplit ((s.map Char.toLower).map charSub) := by
  by_cases hs : s = []
  · subst hs
    rfl
  · rw [normalize_of_ne_nil hs]
    exact genSplit_ic (by decide) _ (fun t ht =>
      ⟨(genSplit_tokens _ t ht).1,
       fun c hc => ((genSplit_tokens _ t ht).2 c hc).1⟩)

theorem map_fix {f : Char → Char} {l : Str} (h : ∀ c ∈ l, f c = c) :
    l.map f = l := by
  rw [List.map_congr_left h]
  exact List.map_id' l

/-- The normalizer fixes its own output. -/
theorem normalize_idem (s : Str) : normalize (normalize s) = normalize s := by
  by_cases hN : normalize s = []
  · rw [hN, normalize_nil]
  · rw [normalize_of_ne_nil hN]
    have hlow : (normalize s).map Char.toLower = normalize s := by
      refine map_fix (fun c hc => ?_)
      rcases normalize_chars hc with rfl | ⟨-, h2, -⟩
      · decide
      · exact h2
    have hsub : (normalize s).map charSub = normalize s := by
      refine map_fix (fun c hc => ?_)
      rcases normalize_chars hc with rfl | ⟨-, -, h3⟩
      · decide
      · exact h3
    rw [hlow, hsub, pySplit_normalize]
    by_cases hs : s = []
    · exfalso
      exact hN (by rw [hs, normalize_nil])
    · exact (normalize_of_ne_nil hs).symm

theorem rr_nil (p : Char → Bool) : replaceRuns p [] = [] := rfl

theorem rr_sep_nil {p : Char → Bool} {c : Char} (h : p c = true) :
    replaceRuns p [c] = [' '] := by
  simp [replaceRuns, h]

theorem rr_sep_sep {p : Char → Bool} {c d : Char} (hc : p c = true)
    (hd : p d = true) (ds : Str) :
    replaceRuns p (c :: d :: ds) = replaceRuns p (d :: ds) := by
  simp [replaceRuns, hc, hd]

theorem rr_sep_tok {p : Char → Bool} {c d : Char} (hc : p c = true)
    (hd : p d = false) (ds : Str) :
    replaceRuns p (c :: d :: ds) = ' ' :: replaceRuns p (d :: ds) := by
  simp [replaceRuns, hc, hd]

theorem rr_tok {p : Char → Bool} {c : Char} (h : p c = false) (cs : Str) :
    replaceRuns p (c :: cs) = c :: replaceRuns p cs := by
  cases cs <;> simp [replaceRuns, h]

/-- The replacement of a run starts with the replacing space. -/
theorem rr_head {p : Char → Bool} :
    ∀ (cs : Str) {c : Char}, p c = true →
      ∃ X, replaceRuns p (c :: cs) = ' ' :: X := by
  intro cs
  induction cs with
  | nil =>
    intro c hc
    exact ⟨[], rr_sep_nil hc⟩
  | cons d ds ih =>
    intro c hc
    cases hd : p d
    · exact ⟨replaceRuns p (d :: ds), rr_sep_tok hc hd ds⟩
    · obtain ⟨X, hX⟩ := ih hd
      exact ⟨X, by rw [rr_sep_sep hc hd, hX]⟩

theorem subClass_or_space (c : Char) :
    (subClass c || isPySpace c) = sepClass c := by
  unfold subClass sepClass
  cases hw : isWordChar c <;> cases hs : isPySpace c <;> simp

/-- Splitting after per-character substitution is splitting the original
string on the combined separator class. -/
theorem genSplit_map_charSub :
    ∀ (l : Str), genSplit isPySpace (l.map charSub) = genSplit sepClass l := by
  intro l
  induction l with
  | nil => rfl
  | cons c cs ih =>
    have hcs : isPySpace (charSub c) = sepClass c := isPySpace_charSub c
    cases hc : sepClass c
    · have hcc : charSub c = c := charSub_of_not_sep (by rwa [← sepClass])
      have hns : isPySpace c = false := by
        rw [← hcc]
        rw [hcs, hc]
      cases cs with
      | nil =>
        rw [List.map_cons, List.map_nil, hcc, genSplit_singleton hns,
          genSplit_singleton hc]
      | cons d ds =>
        have hds : isPySpace (charSub d) = sepClass d := isPySpace_charSub d
        cases hd : sepClass d
        · rw [List.map_cons, List.map_cons, hcc,
            genSplit_tok_tok hns (by rw [hds, hd]),
            genSplit_tok_tok hc hd,
            show charSub d :: List.map charSub ds = (d :: ds).map charSub from rfl,
            ih]
        · rw [List.map_cons, List.map_cons, hcc,
            genSplit_tok_sep hns (by rw [hds, hd]),
            genSplit_tok_sep hc hd,
            show charSub d :: List.map charSub ds = (d :: ds).map charSub from rfl,
            ih]
    · rw [List.map_cons, genSplit_sep (by rw [hcs, hc]), genSplit_sep hc, ih]

/-- Splitting after run replacement is splitting the original string on the
combined separator class. -/
theorem genSplit_replaceRuns :
    ∀ (l : Str), genSplit isPySpace (replaceRuns subClass l) = genSplit sepClass l := by
  intro l
  induction l with
  | nil => rfl
  | cons c cs ih =>
    cases hcw : isWordChar c <;> cases hcp : isPySpace c
    · -- subClass c = true, sepClass c = true
      have hsub : subClass c = true := by simp [subClass, hcw, hcp]
      have hsep : sepClass c = true := by simp [sepClass, hcw, hcp]
      rw [genSplit_sep hsep]
      cases cs with
      | nil =>
        rw [rr_sep_nil hsub]
        decide
      | cons d ds =>
        cases hd : subClass d
        · rw [rr_sep_tok hsub hd, genSplit_sep (by decide), ih]
        · rw [rr_sep_sep hsub hd, ih]
    · -- not word but whitespace: kept, and a separator on both sides
      have hsub : subClass c = false := by simp [subClass, hcw, hcp]
      have hsep : sepClass c = true := by simp [sepClass, hcw, hcp]
      rw [rr_tok hsub, genSplit_sep hcp, genSplit_sep hsep, ih]
    · -- word char: token head on both sides
      have hsub : subClass c = false := by simp [subClass, hcw, hcp]
      have hsep : sepClass c = false := by simp [sepClass, hcw, hcp]
      rw [rr_tok hsub]
      cases cs with
      | nil =>
        rw [rr_nil, genSplit_singleton hcp, genSplit_singleton hsep]
      | cons d ds =>
        cases hdw : isWordChar d <;> cases hdp : isPySpace d
        · -- d replaced by a run space
          have hdsub : subClass d = true := by simp [subClass, hdw, hdp]
          have hdsep : sepClass d = true := by simp [sepClass, hdw, hdp]
          obtain ⟨X, hX⟩ := rr_head ds hdsub
          rw [hX, genSplit_tok_sep hcp (by decide), ← hX, ih,
            genSplit_tok_sep hsep hdsep]
        · -- d is whitespace, kept
          have hdsub : subClass d = false := by simp [subClass, hdw, hdp]
          have hdsep : sepClass d = true := by simp [sepClass, hdw, hdp]
          rw [rr_tok hdsub, genSplit_tok_sep hcp hdp, ← rr_tok hdsub, ih,
            genSplit_tok_sep hsep hdsep]
        · -- d is a word char: both continue the token
          have hdsub : subClass d = false := by simp [subClass, hdw, hdp]
          have hdsep : sepClass d = false := by simp [sepClass, hdw, hdp]
          rw [rr_tok hdsub, genSplit_tok_tok hcp hdp, ← rr_tok hdsub, ih,
            genSplit_tok_tok hsep hdsep]
        · -- word and whitespace at once: impossible
          exact absurd hdp (by rw [word_not_space hdw]; simp)
    · exact absurd hcp (by rw [word_not_space hcw]; simp)

/-! ### `maxOr0` lemmas -/

theorem le_foldl_max : ∀ (l : List ℚ) (a : ℚ), a ≤ l.foldl max a := by
  intro l
  induction l with
  | nil => intro a; simp
  | cons x xs ih =>
    intro a
    exact le_trans (le_max_left a x) (ih (max a x))

theorem mem_le_foldl_max : ∀ (l : List ℚ) (a x : ℚ), x ∈ l → x ≤ l.foldl max a := by
  intro l
  induction l with
  | nil => intro a x hx; exact absurd hx (by simp)
  | cons y ys ih =>
    intro a x hx
    rcases List.mem_cons.mp hx with rfl | hx'
    · exact le_trans (le_max_right a x) (le_foldl_max ys (max a x))
    · exact ih (max a y) x hx'

theorem foldl_max_mem : ∀ (l : List ℚ) (a : ℚ), l.foldl max a = a ∨ l.foldl max a ∈ l := by
  intro l
  induction l with
  | nil => intro a; exact Or.inl rfl
  | cons x xs ih =>
    intro a
    rcases ih (max a x) with h | h
    · rcases max_choice a x with hm | hm
      · exact Or.inl (by rw [List.foldl_cons, h, hm])
      · exact Or.inr (by rw [List.foldl_cons, h, hm]; exact List.mem_cons_self _ _)
    · exact Or.inr (List.mem_cons_of_mem _ (by rw [List.foldl_cons]; exact h))

theorem maxOr0_nonneg {l : List ℚ} (h : ∀ x ∈ l, 0 ≤ x) : 0 ≤ maxOr0 l := by
  cases l with
  | nil => exact le_refl 0
  | cons s rest =>
    exact le_trans (h s (List.mem_cons_self _ _)) (le_foldl_max rest s)

theorem le_maxOr0 {l : List ℚ} {x : ℚ} (hx : x ∈ l) : x ≤ maxOr0 l := by
  cases l with
  | nil => exact absurd hx (by simp)
  | cons s rest =>
    rcases List.mem_cons.mp hx with rfl | hx'
    · exact le_foldl_max rest x
    · exact mem_le_foldl_max rest s x hx'

theorem maxOr0_mem {l : List ℚ} (h : l ≠ []) : maxOr0 l ∈ l := by
  cases l with
  | nil => exact absurd rfl h
  | cons s rest =>
    rcases foldl_max_mem rest s with h1 | h1
    · rw [maxOr0, h1]; exact List.mem_cons_self _ _
    · exact List.mem_cons_of_mem _ h1

/-! ### Emptiness of the normalized string -/

theorem ic_ne_nil {sep : Char} {t : Str} (h : t ≠ []) (ts : List Str) :
    List.intercalate [sep] (t :: ts) ≠ [] := by
  cases ts with
  | nil => rw [ic_single]; exact h
  | cons t' ts' =>
    rw [ic_cons_cons]
    intro heq
    exact absurd (List.append_eq_nil.mp heq).2 (by simp)

theorem normalize_eq_nil_iff (s : Str) :
    normalize s = [] ↔ pySplit ((s.map Char.toLower).map charSub) = [] := by
  by_cases hs : s = []
  · subst hs
    simp [normalize_nil]
    rfl
  · rw [normalize_of_ne_nil hs]
    constructor
    · intro h
      cases hts : pySplit ((s.map Char.toLower).map charSub) with
      | nil => rfl
      | cons t ts =>
        rw [hts] at h
        have htmem : t ∈ genSplit isPySpace ((s.map Char.toLower).map charSub) := by
          have : t ∈ pySplit ((s.map Char.toLower).map charSub) := by
            rw [hts]
            exact List.mem_cons_self _ _
          exact this
        have ht : t ≠ [] := (genSplit_tokens _ t htmem).1
        exact absurd h (ic_ne_nil ht ts)
    · intro h
      have h' : genSplit isPySpace ((s.map Char.toLower).map charSub) = [] := h
      show List.intercalate [' ']
        (genSplit isPySpace ((s.map Char.toLower).map charSub)) = []
      rw [h']
      rfl

theorem last_name_none_iff (full : Str) :
    last_name full = none ↔ normalize full = [] := by
  unfold last_name
  rw [pySplit_normalize, List.getLast?_eq_none_iff, ← normalize_eq_nil_iff]

/-! ### `author_name_score` characterization -/

theorem author_name_score_of_empty {pr : SimFn} {full : Str} (authors : List Str)
    (h : normalize full = []) : author_name_score pr full authors = none := by
  have hl : last_name full = none := (last_name_none_iff full).mpr h
  unfold author_name_score
  rw [hl]

theorem author_name_score_of_ne {pr : SimFn} {full : Str} (authors : List Str)
    (h : normalize full ≠ []) :
    ∃ lastN ini,
      last_name full = some lastN ∧ (normalize full).head? = some ini ∧
      author_name_score pr full authors =
        some (maxOr0 (author_variant_scores pr (normalize full) lastN ini authors)) := by
  have hl : last_name full ≠ none := fun hc => h ((last_name_none_iff full).mp hc)
  obtain ⟨lastN, hlast⟩ := Option.ne_none_iff_exists'.mp hl
  obtain ⟨ini, hini⟩ := Option.ne_none_iff_exists'.mp
    (fun hc : (normalize full).head? = none => h (List.head?_eq_none_iff.mp hc))
  refine ⟨lastN, ini, hlast, hini, ?_⟩
  unfold author_name_score
  simp only [hlast, hini]

theorem author_variant_scores_nonneg {pr : SimFn} (hpr : ∀ a b, 0 ≤ pr a b)
    (full lastN : Str) (ini : Char) (authors : List Str) :
    ∀ x ∈ author_variant_scores pr full lastN ini authors, 0 ≤ x := by
  intro x hx
  obtain ⟨a0, -, hmem⟩ := List.mem_flatMap.mp hx
  simp only [List.mem_cons, List.mem_singleton] at hmem
  rcases hmem with rfl | rfl | rfl | h
  · exact hpr _ _
  · exact hpr _ _
  · exact hpr _ _
  · exact absurd h (by simp)

theorem author_score_nonneg {pr : SimFn} (hpr : ∀ a b, 0 ≤ pr a b)
    {full : Str} {authors : List Str} {a : ℚ}
    (h : author_name_score pr full authors = some a) : 0 ≤ a := by
  by_cases hn : normalize full = []
  · rw [author_name_score_of_empty authors hn] at h
    exact absurd h (by simp)
  · obtain ⟨lastN, ini, -, -, heq⟩ := @author_name_score_of_ne pr _ authors hn
    rw [heq] at h
    rcases Option.some.inj h with rfl
    exact maxOr0_nonneg (author_variant_scores_nonneg hpr _ _ _ _)

/-! ### `id_bonus`, `candScore`, `cap_score` bounds -/

theorem id_bonus_eq (orcid scopus_id researcher_id : Option Str) (hit : Candidate) :
    id_bonus orcid scopus_id researcher_id hit =
      min ((if truthyStr orcid ∧ orcid.getD [] ∈ hit.orcid.getD [] then (15 : ℚ) else 0) +
           (if truthyStr scopus_id then (5 : ℚ) else 0) +
           (if truthyStr researcher_id then (5 : ℚ) else 0)) 25 := by
  unfold id_bonus
  by_cases h1 : truthyStr orcid ∧ orcid.getD [] ∈ hit.orcid.getD [] <;>
    by_cases h2 : truthyStr scopus_id = true <;>
    by_cases h3 : truthyStr researcher_id = true <;>
    simp [h1, h2, h3]

theorem id_bonus_nonneg (orcid scopus_id researcher_id : Option Str) (hit : Candidate) :
    0 ≤ id_bonus orcid scopus_id researcher_id hit := by
  rw [id_bonus_eq]
  refine le_min ?_ (by norm_num)
  have n1 : 0 ≤ (if truthyStr orcid ∧ orcid.getD [] ∈ hit.orcid.getD [] then (15 : ℚ) else 0) := by
    split <;> norm_num
  have n2 : 0 ≤ (if truthyStr scopus_id then (5 : ℚ) else 0) := by
    split <;> norm_num
  have n3 : 0 ≤ (if truthyStr researcher_id then (5 : ℚ) else 0) := by
    split <;> norm_num
  linarith

theorem id_bonus_le (orcid scopus_id researcher_id : Option Str) (hit : Candidate) :
    id_bonus orcid scopus_id researcher_id hit ≤ 25 := by
  rw [id_bonus_eq]
  exact min_le_right _ _

theorem candScore_nonneg {tsr : SimFn} (htsr : ∀ a b, 0 ≤ tsr a b)
    (pub_title : Str) (orcid scopus_id researcher_id : Option Str)
    (c : Candidate) {ascore : ℚ} (ha : 0 ≤ ascore) :
    0 ≤ candScore tsr pub_title orcid scopus_id researcher_id c ascore := by
  unfold candScore
  have h1 : 0 ≤ 0.65 * title_score tsr pub_title c.title := by
    have := htsr (normalize pub_title) (normalize c.title)
    unfold title_score
    nlinarith
  have h2 : 0 ≤ 0.25 * ascore := by nlinarith
  have h3 : 0 ≤ (if truthyStr c.doi then (5 : ℚ) else 0) := by
    split <;> norm_num
  have h4 := id_bonus_nonneg orcid scopus_id researcher_id c
  linarith

theorem round2_nonneg {q : ℚ} (h : 0 ≤ q) : 0 ≤ round2 q := by
  unfold round2
  refine div_nonneg ?_ (by norm_num)
  have : (0 : ℤ) ≤ round (q * 100) := by
    rw [round_eq]
    refine Int.floor_nonneg.mpr ?_
    nlinarith
  exact_mod_cast this

theorem cap_score_le_100 (q : ℚ) : cap_score q ≤ 100 := min_le_right _ _

theorem cap_score_nonneg {q : ℚ} (h : 0 ≤ q) : 0 ≤ cap_score q :=
  le_min (round2_nonneg h) (by norm_num)

theorem cap_score_grid (q : ℚ) : ∃ n : ℤ, cap_score q = n / 100 := by
  unfold cap_score round2
  rcases le_total (((round (q * 100) : ℤ) : ℚ) / 100) 100 with h | h
  · exact ⟨round (q * 100), min_eq_left h⟩
  · exact ⟨10000, by rw [min_eq_right h]; norm_num⟩

/-! ### `mapOrFail` lemmas -/

theorem mapOrFail_length {f : α → Option β} :
    ∀ {l : List α} {w : List β}, mapOrFail f l = some w → w.length = l.length := by
  intro l
  induction l with
  | nil =>
    intro w h
    rcases Option.some.inj h.symm with rfl
    rfl
  | cons a as ih =>
    intro w h
    unfold mapOrFail at h
    cases hfa : f a with
    | none => rw [hfa] at h; exact absurd h (by simp)
    | some b =>
      rw [hfa] at h
      cases hrest : mapOrFail f as with
      | none => rw [hrest] at h; exact absurd h (by simp)
      | some bs =>
        rw [hrest] at h
        rcases Option.some.inj h.symm with rfl
        simp [ih hrest]

theorem mapOrFail_get {f : α → Option β} :
    ∀ {l : List α} {w : List β}, mapOrFail f l = some w →
      ∀ (i : ℕ) (h1 : i < l.length) (h2 : i < w.length),
        f (l.get ⟨i, h1⟩) = some (w.get ⟨i, h2⟩) := by
  intro l
  induction l with
  | nil =>
    intro w h i h1 h2
    exact absurd h1 (by simp)
  | cons a as ih =>
    intro w h i h1 h2
    unfold mapOrFail at h
    cases hfa : f a with
    | none => rw [hfa] at h; exact absurd h (by simp)
    | some b =>
      rw [hfa] at h
      cases hrest : mapOrFail f as with
      | none => rw [hrest] at h; exact absurd h (by simp)
      | some bs =>
        rw [hrest] at h
        rcases Option.some.inj h.symm with rfl
        cases i with
        | zero => exact hfa
        | succ j =>
          exact ih hrest j (Nat.lt_of_succ_lt_succ h1) (Nat.lt_of_succ_lt_succ h2)

theorem FoldInv_step {pr tsr : SimFn} {pt an : Str} {o sc rs : Option Str}
    {processed : List Candidate} {st : BestState} {c : Candidate} {st' : BestState}
    (hinv : FoldInv pr tsr pt an o sc rs processed st)
    (hstep : step pr tsr pt an o sc rs st c = some st') :
    FoldInv pr tsr pt an o sc rs (processed ++ [c]) st' := by
  unfold step at hstep
  rcases Option.map_eq_some'.mp hstep with ⟨a, ha, hst'⟩
  have hcomp : composite pr tsr pt an o sc rs c =
      some (candScore tsr pt o sc rs c a) := by
    unfold composite
    rw [ha]
    rfl
  by_cases hgt : candScore tsr pt o sc rs c a > st.best_score
  · have hval : st' = ⟨some c, candScore tsr pt o sc rs c a, a, truthyStr c.doi⟩ := by
      rw [← hst']
      simp only [if_pos hgt]
    subst hval
    right
    refine ⟨c, processed, [], a, rfl, rfl, ha, rfl, rfl, rfl, ?_, by simp⟩
    intro x hx sx hsx
    show sx < candScore tsr pt o sc rs c a
    rcases hinv with ⟨hinit, hall⟩ | ⟨c0, l1, l2, a0, hsplit, hbest, ha0, hba, hbd, hbs, hl1, hl2⟩
    · have hle := hall x hx sx hsx
      have hm1 : st.best_score = -1 := by rw [hinit]
      rw [hm1] at hgt
      linarith
    · have hcomp0 : composite pr tsr pt an o sc rs c0 =
          some (candScore tsr pt o sc rs c0 a0) := by
        unfold composite
        rw [ha0]
        rfl
      rw [hsplit] at hx
      rcases List.mem_append.mp hx with hx1 | hx2
      · exact lt_trans (hl1 x hx1 sx hsx) hgt
      · rcases List.mem_cons.mp hx2 with rfl | hx3
        · rcases Option.some.inj (hcomp0.symm.trans hsx) with rfl
          rw [← hbs]
          exact hgt
        · exact lt_of_le_of_lt (hl2 x hx3 sx hsx) hgt
  · have hval : st' = st := by
      rw [← hst']
      simp only [if_neg hgt]
    subst hval
    rcases hinv with ⟨hinit, hall⟩ | ⟨c0, l1, l2, a0, hsplit, hbest, ha0, hba, hbd, hbs, hl1, hl2⟩
    · left
      refine ⟨hinit, ?_⟩
      intro x hx sx hsx
      rcases List.mem_append.mp hx with hx1 | hx2
      · exact hall x hx1 sx hsx
      · rcases List.mem_singleton.mp hx2 with rfl
        rcases Option.some.inj (hcomp.symm.trans hsx) with rfl
        have hle := not_lt.mp hgt
        rw [hinit] at hle
        simpa using hle
    · right
      refine ⟨c0, l1, l2 ++ [c], a0, ?_, hbest, ha0, hba, hbd, hbs, hl1, ?_⟩
      · rw [hsplit, List.append_assoc, List.cons_append]
      · intro x hx sx hsx
        rcases List.mem_append.mp hx with hx1 | hx2
        · exact hl2 x hx1 sx hsx
        · rcases List.mem_singleton.mp hx2 with rfl
          rcases Option.some.inj (hcomp.symm.trans hsx) with rfl
          rw [hbs] at hgt ⊢
          exact not_lt.mp hgt

theorem FoldInv_fold {pr tsr : SimFn} {pt an : Str} {o sc rs : Option Str} :
    ∀ (cs processed : List Candidate) (st stf : BestState),
      FoldInv pr tsr pt an o sc rs processed st →
      best_fold pr tsr pt an o sc rs st cs = some stf →
      FoldInv pr tsr pt an o sc rs (processed ++ cs) stf := by
  intro cs
  induction cs with
  | nil =>
    intro processed st stf hinv hfold
    rcases Option.some.inj hfold with rfl
    simpa using hinv
  | cons c cs' ih =>
    intro processed st stf hinv hfold
    unfold best_fold at hfold
    cases hstep : step pr tsr pt an o sc rs st c with
    | none =>
      rw [hstep] at hfold
      exact absurd hfold (by simp)
    | some st' =>
      rw [hstep] at hfold
      have hres := ih (processed ++ [c]) st' stf (FoldInv_step hinv hstep) hfold
      rwa [List.append_assoc, List.singleton_append] at hres

theorem best_fold_total {pr tsr : SimFn} {pt an : Str} {o sc rs : Option Str}
    (hname : normalize an ≠ []) :
    ∀ (cs : List Candidate) (st : BestState),
      ∃ stf, best_fold pr tsr pt an o sc rs st cs = some stf := by
  intro cs
  induction cs with
  | nil => intro st; exact ⟨st, rfl⟩
  | cons c cs' ih =>
    intro st
    obtain ⟨lastN, ini, -, -, heq⟩ := @author_name_score_of_ne pr _ c.authors hname
    have hsome : ∃ st', step pr tsr pt an o sc rs st c = some st' := by
      unfold step
      rw [heq]
      exact ⟨_, rfl⟩
    obtain ⟨st', hstep⟩ := hsome
    obtain ⟨stf, hf⟩ := ih st'
    refine ⟨stf, ?_⟩
    unfold best_fold
    rw [hstep]
    exact hf

/-- After a successful loop over a non-empty pool with non-negative ratio
functions, the final state holds the first candidate attaining the strict
maximum composite score. -/
theorem fold_result_right {pr tsr : SimFn} {pt an : Str} {o sc rs : Option Str}
    {cs : List Candidate} {stf : BestState}
    (hpr : ∀ a b, 0 ≤ pr a b) (htsr : ∀ a b, 0 ≤ tsr a b)
    (hname : normalize an ≠ []) (hne : cs ≠ [])
    (hfold : best_fold pr tsr pt an o sc rs ⟨none, -1, 0, false⟩ cs = some stf) :
    ∃ c l1 l2 a, cs = l1 ++ c :: l2 ∧ stf.best = some c ∧
      author_name_score pr an c.authors = some a ∧
      stf.best_author_score = a ∧ stf.best_doi = truthyStr c.doi ∧
      stf.best_score = candScore tsr pt o sc rs c a ∧
      (∀ x ∈ l1, ∀ sx, composite pr tsr pt an o sc rs x = some sx → sx < stf.best_score) ∧
      (∀ x ∈ l2, ∀ sx, composite pr tsr pt an o sc rs x = some sx → sx ≤ stf.best_score) := by
  have hinv0 : FoldInv pr tsr pt an o sc rs [] ⟨none, -1, 0, false⟩ :=
    Or.inl ⟨rfl, by simp⟩
  have hinv := FoldInv_fold cs [] _ _ hinv0 hfold
  rw [List.nil_append] at hinv
  rcases hinv with ⟨-, hall⟩ | h
  · exfalso
    cases cs with
    | nil => exact hne rfl
    | cons c0 cs0 =>
      obtain ⟨lastN, ini, -, -, heq⟩ := @author_name_score_of_ne pr _ c0.authors hname
      have hc0 : composite pr tsr pt an o sc rs c0 =
          some (candScore tsr pt o sc rs c0
            (maxOr0 (author_variant_scores pr (normalize an) lastN ini c0.authors))) := by
        unfold composite
        rw [heq]
        rfl
      have hle := hall c0 (List.mem_cons_self _ _) _ hc0
      have h0 : 0 ≤ candScore tsr pt o sc rs c0
          (maxOr0 (author_variant_scores pr (normalize an) lastN ini c0.authors)) :=
        candScore_nonneg htsr pt o sc rs c0 (author_score_nonneg hpr heq)
      linarith
  · exact h

/-- A successful loop over a non-empty pool implies the author name has a
non-empty normalization (otherwise the first `author_name_score` call
raises and the loop aborts). -/
theorem fold_success_name {pr tsr : SimFn} {pt an : Str} {o sc rs : Option Str}
    {c0 : Candidate} {cs0 : List Candidate} {st stf : BestState}
    (hfold : best_fold pr tsr pt an o sc rs st (c0 :: cs0) = some stf) :
    normalize an ≠ [] := by
  intro hn
  unfold best_fold at hfold
  have hstep : step pr tsr pt an o sc rs st c0 = none := by
    unfold step
    rw [author_name_score_of_empty c0.authors hn]
    rfl
  rw [hstep] at hfold
  exact absurd hfold (by simp)

/-! ## Claims -/

/-- C1: For every non-empty candidate pool whose scoring loop completes
with state `st`, the produced classification is decided by the ordered
rules on the retained best candidate's scores: `AUTHENTIC` when its
`authorNameScore` is at least 85, irrespective of the composite score;
else `LIKELY AUTHENTIC` when the composite score is at least 75; else
`SCHOLAR-CLAIMED OUTPUT` when the composite score is at least 60; else
`LIKELY MISATTRIBUTED`. -/
theorem c1_classification_rules (pr tsr : SimFn) (cr : Option (List CrossrefItem))
    (sr : Option (List SemanticPaper)) (pt an : Str) (o sc rs : Option Str)
    (st : BestState)
    (hne : crossref_lookup cr ++ semantic_lookup sr ≠ [])
    (hfold : best_fold pr tsr pt an o sc rs ⟨none, -1, 0, false⟩
      (crossref_lookup cr ++ semantic_lookup sr) = some st) :
    ∃ res, verify_publication pr tsr cr sr pt an o sc rs = some res ∧
      res.classification =
        (if st.best_author_score ≥ 85 then Label.AUTHENTIC
         else if st.best_score ≥ 75 then Label.LIKELY_AUTHENTIC
         else if st.best_score ≥ 60 then Label.SCHOLAR_CLAIMED
         else Label.LIKELY_MISATTRIBUTED) ∧
      (st.best_author_score ≥ 85 → res.classification = Label.AUTHENTIC) := by
  simp only [verify_publication]
  rw [if_neg hne, hfold, Option.map_some']
  refine ⟨_, rfl, rfl, fun h => ?_⟩
  show (if st.best_author_score ≥ 85 then Label.AUTHENTIC
        else if st.best_score ≥ 75 then Label.LIKELY_AUTHENTIC
        else if st.best_score ≥ 60 then Label.SCHOLAR_CLAIMED
        else Label.LIKELY_MISATTRIBUTED) = Label.AUTHENTIC
  rw [if_pos h]

/-- C1 witness: one Crossref candidate with a DOI and no authors, constant
ratio 100; the retained state is `⟨candA, 70, 0, true⟩` and the rules give
`SCHOLAR-CLAIMED OUTPUT`. -/
theorem c1_witness :
    ∃ res, verify_publication (fun _ _ => (100 : ℚ)) (fun _ _ => (100 : ℚ))
        (some [itemA]) none ['t'] ['a', 'b'] none none none = some res ∧
      res.classification =
        (if (0 : ℚ) ≥ 85 then Label.AUTHENTIC
         else if (70 : ℚ) ≥ 75 then Label.LIKELY_AUTHENTIC
         else if (70 : ℚ) ≥ 60 then Label.SCHOLAR_CLAIMED
         else Label.LIKELY_MISATTRIBUTED) ∧
      ((0 : ℚ) ≥ 85 → res.classification = Label.AUTHENTIC) :=
  c1_classification_rules (fun _ _ => 100) (fun _ _ => 100) (some [itemA]) none
    ['t'] ['a', 'b'] none none none ⟨some candA, 70, 0, true⟩
    (by decide) (by with_unfolding_all decide)

/-- C2: Every produced `VerificationResult` has a confidence score in
`[0, 100]`, clamped to at most 100 and lying on the two-decimal grid, for
any candidate pool and identifiers, assuming only that the similarity
library returns non-negative ratios. -/
theorem c2_confidence_bounds (pr tsr : SimFn)
    (hpr : ∀ a b, 0 ≤ pr a b) (htsr : ∀ a b, 0 ≤ tsr a b)
    (cr : Option (List CrossrefItem)) (sr : Option (List SemanticPaper))
    (pt an : Str) (o sc rs : Option Str) (res : VerificationResult)
    (h : verify_publication pr tsr cr sr pt an o sc rs = some res) :
    0 ≤ res.confidence_score ∧ res.confidence_score ≤ 100 ∧
      ∃ n : ℤ, res.confidence_score = n / 100 := by
  simp only [verify_publication] at h
  by_cases hc : crossref_lookup cr ++ semantic_lookup sr = []
  · rw [if_pos hc] at h
    rcases Option.some.inj h with rfl
    refine ⟨?_, ?_, 8500, ?_⟩
    · show (0 : ℚ) ≤ 85
      norm_num
    · show (85 : ℚ) ≤ 100
      norm_num
    · show (85 : ℚ) = (8500 : ℤ) / 100
      norm_num
  · rw [if_neg hc] at h
    rcases Option.map_eq_some'.mp h with ⟨st, hfold, rfl⟩
    cases hcs : crossref_lookup cr ++ semantic_lookup sr with
    | nil => exact absurd hcs hc
    | cons c0 cs0 =>
      rw [hcs] at hfold
      have hname : normalize an ≠ [] := fold_success_name hfold
      obtain ⟨c, l1, l2, a, -, -, ha, -, -, hbs, -, -⟩ :=
        fold_result_right hpr htsr hname (by simp) hfold
      have hnn : 0 ≤ st.best_score := by
        rw [hbs]
        exact candScore_nonneg htsr pt o sc rs c (author_score_nonneg hpr ha)
      refine ⟨?_, ?_, ?_⟩
      · show 0 ≤ cap_score st.best_score
        exact cap_score_nonneg hnn
      · show cap_score st.best_score ≤ 100
        exact cap_score_le_100 _
      · show ∃ n : ℤ, cap_score st.best_score = n / 100
        exact cap_score_grid _

/-- C2 witness: empty pool, constant zero ratios; the produced score 85
satisfies the bounds and lies on the two-decimal grid. -/
theorem c2_witness :
    (0 : ℚ) ≤ 85 ∧ (85 : ℚ) ≤ 100 ∧ ∃ n : ℤ, (85 : ℚ) = n / 100 :=
  c2_confidence_bounds (fun _ _ => 0) (fun _ _ => 0)
    (by intro a b; show (0 : ℚ) ≤ 0; decide) (by intro a b; show (0 : ℚ) ≤ 0; decide)
    none none ['t'] ['a'] none none none
    { claimed_title := ['t'], matched_title := []
      matched_source := SourceTag.googleScholarOnly, doi := some []
      confidence_score := 85, classification := Label.SCHOLAR_CLAIMED
      verification_strength := Strength.basic, reason := Reason.noExternalRecord }
    (by decide)

/-- C3: With an empty candidate pool the result is fixed: score exactly 85,
classification `SCHOLAR-CLAIMED OUTPUT`, reason "No external bibliographic
record found", and verification strength computed with DOI-present =
false, whatever identifiers were supplied. -/
theorem c3_empty_pool (pr tsr : SimFn) (cr : Option (List CrossrefItem))
    (sr : Option (List SemanticPaper)) (pt an : Str) (o sc rs : Option Str)
    (hempty : crossref_lookup cr ++ semantic_lookup sr = []) :
    verify_publication pr tsr cr sr pt an o sc rs =
      some { claimed_title := pt, matched_title := []
             matched_source := SourceTag.googleScholarOnly, doi := some []
             confidence_score := 85, classification := Label.SCHOLAR_CLAIMED
             verification_strength := verification_strength o false
             reason := Reason.noExternalRecord } := by
  simp only [verify_publication]
  rw [if_pos hempty]
  rfl

/-- C3 witness: both lookups fail, an ORCID is supplied; the fixed result
is produced with strength computed at DOI-present = false. -/
theorem c3_witness :
    verify_publication (fun _ _ => 0) (fun _ _ => 0) none none ['t'] ['a']
        (some ['o']) none none =
      some { claimed_title := ['t'], matched_title := []
             matched_source := SourceTag.googleScholarOnly, doi := some []
             confidence_score := 85, classification := Label.SCHOLAR_CLAIMED
             verification_strength := verification_strength (some ['o']) false
             reason := Reason.noExternalRecord } :=
  c3_empty_pool (fun _ _ => 0) (fun _ _ => 0) none none ['t'] ['a']
    (some ['o']) none none rfl

/-- C4: `id_bonus` equals the capped sum of +15 for a truthy claimed ORCID
that is a member of the candidate's ORCID set, +5 for a supplied Scopus ID
(presence only), +5 for a supplied Researcher ID (presence only), capped
at 25; it always lies in `[0, 25]`. -/
theorem c4_id_bonus_bounds (orcid scopus_id researcher_id : Option Str)
    (hit : Candidate) :
    id_bonus orcid scopus_id researcher_id hit =
      min ((if truthyStr orcid ∧ orcid.getD [] ∈ hit.orcid.getD [] then (15 : ℚ) else 0) +
           (if truthyStr scopus_id then (5 : ℚ) else 0) +
           (if truthyStr researcher_id then (5 : ℚ) else 0)) 25 ∧
    0 ≤ id_bonus orcid scopus_id researcher_id hit ∧
    id_bonus orcid scopus_id researcher_id hit ≤ 25 :=
  ⟨id_bonus_eq orcid scopus_id researcher_id hit,
   id_bonus_nonneg orcid scopus_id researcher_id hit,
   id_bonus_le orcid scopus_id researcher_id hit⟩

/-- C5: For a non-empty pool (Crossref results first, then Semantic
Scholar), the loop selects the candidate with the strictly greatest
composite score; on ties the first one in concatenation order is retained:
the pool splits as `l1 ++ best :: l2` with all earlier composites strictly
below and all later composites at most the best score, and the produced
result is built from that candidate. -/
theorem c5_best_selection (pr tsr : SimFn)
    (hpr : ∀ a b, 0 ≤ pr a b) (htsr : ∀ a b, 0 ≤ tsr a b)
    (cr : Option (List CrossrefItem)) (sr : Option (List SemanticPaper))
    (pt an : Str) (o sc rs : Option Str)
    (hname : normalize an ≠ [])
    (hne : crossref_lookup cr ++ semantic_lookup sr ≠ []) :
    ∃ st c l1 l2 s,
      best_fold pr tsr pt an o sc rs ⟨none, -1, 0, false⟩
        (crossref_lookup cr ++ semantic_lookup sr) = some st ∧
      st.best = some c ∧
      crossref_lookup cr ++ semantic_lookup sr = l1 ++ c :: l2 ∧
      composite pr tsr pt an o sc rs c = some s ∧
      st.best_score = s ∧
      (∀ x ∈ l1, ∀ sx, composite pr tsr pt an o sc rs x = some sx → sx < s) ∧
      (∀ x ∈ l2, ∀ sx, composite pr tsr pt an o sc rs x = some sx → sx ≤ s) ∧
      ∃ res, verify_publication pr tsr cr sr pt an o sc rs = some res ∧
        res.matched_title = c.title ∧ res.matched_source = c.source := by
  obtain ⟨st, hfold⟩ :=
    @best_fold_total pr tsr pt an o sc rs hname
      (crossref_lookup cr ++ semantic_lookup sr) ⟨none, -1, 0, false⟩
  obtain ⟨c, l1, l2, a, hsplit, hbest, ha, hba, hbd, hbs, hl1, hl2⟩ :=
    fold_result_right hpr htsr hname hne hfold
  have hcomp : composite pr tsr pt an o sc rs c = some st.best_score := by
    unfold composite
    rw [ha, Option.map_some', hbs]
  refine ⟨st, c, l1, l2, st.best_score, hfold, hbest, hsplit, hcomp, rfl, hl1, hl2, ?_⟩
  simp only [verify_publication]
  rw [if_neg hne, hfold, Option.map_some']
  refine ⟨_, rfl, ?_, ?_⟩
  · show (match st.best with | some b => b.title | none => ([] : Str)) = c.title
    rw [hbest]
  · show (match st.best with
      | some b => b.source
      | none => SourceTag.googleScholarOnly) = c.source
    rw [hbest]

/-- C5 witness: two identical Crossref candidates (equal composite scores);
the theorem applies at this pool. -/
theorem c5_witness :
    ∃ st c l1 l2 s,
      best_fold (fun _ _ => (100 : ℚ)) (fun _ _ => (100 : ℚ)) ['t'] ['a', 'b']
        none none none ⟨none, -1, 0, false⟩
        (crossref_lookup (some [itemA, itemA]) ++ semantic_lookup none) = some st ∧
      st.best = some c ∧
      crossref_lookup (some [itemA, itemA]) ++ semantic_lookup none = l1 ++ c :: l2 ∧
      composite (fun _ _ => (100 : ℚ)) (fun _ _ => (100 : ℚ)) ['t'] ['a', 'b']
        none none none c = some s ∧
      st.best_score = s ∧
      (∀ x ∈ l1, ∀ sx, composite (fun _ _ => (100 : ℚ)) (fun _ _ => (100 : ℚ))
        ['t'] ['a', 'b'] none none none x = some sx → sx < s) ∧
      (∀ x ∈ l2, ∀ sx, composite (fun _ _ => (100 : ℚ)) (fun _ _ => (100 : ℚ))
        ['t'] ['a', 'b'] none none none x = some sx → sx ≤ s) ∧
      ∃ res, verify_publication (fun _ _ => (100 : ℚ)) (fun _ _ => (100 : ℚ))
          (some [itemA, itemA]) none ['t'] ['a', 'b'] none none none = some res ∧
        res.matched_title = c.title ∧ res.matched_source = c.source :=
  c5_best_selection (fun _ _ => 100) (fun _ _ => 100)
    (by intro a b; show (0 : ℚ) ≤ 100; decide) (by intro a b; show (0 : ℚ) ≤ 100; decide)
    (some [itemA, itemA]) none ['t'] ['a', 'b'] none none none
    (by decide) (by decide)

/-- C6: Each adapter returns the empty sequence on a failed exchange
(network error, non-2xx status, unparsable body) and on a parsing failure
inside the result loop; on a successful mapping it returns the hits in
source order, one candidate per hit (hence at most 3 candidates whenever
the response respects the requested `rows=3` / `limit=3` bound). -/
theorem c6_adapters :
    crossref_lookup none = [] ∧ semantic_lookup none = [] ∧
    (∀ items : List CrossrefItem, mapOrFail crossrefMapItem items = none →
      crossref_lookup (some items) = []) ∧
    (∀ papers : List SemanticPaper, mapOrFail semanticMapItem papers = none →
      semantic_lookup (some papers) = []) ∧
    (∀ items : List CrossrefItem, items.length ≤ 3 →
      (crossref_lookup (some items)).length ≤ 3) ∧
    (∀ papers : List SemanticPaper, papers.length ≤ 3 →
      (semantic_lookup (some papers)).length ≤ 3) ∧
    (∀ (items : List CrossrefItem) (w : List Candidate),
      mapOrFail crossrefMapItem items = some w →
      crossref_lookup (some items) = w ∧ w.length = items.length ∧
      ∀ (i : ℕ) (h1 : i < items.length) (h2 : i < w.length),
        crossrefMapItem (items.get ⟨i, h1⟩) = some (w.get ⟨i, h2⟩)) ∧
    (∀ (papers : List SemanticPaper) (w : List Candidate),
      mapOrFail semanticMapItem papers = some w →
      semantic_lookup (some papers) = w ∧ w.length = papers.length ∧
      ∀ (i : ℕ) (h1 : i < papers.length) (h2 : i < w.length),
        semanticMapItem (papers.get ⟨i, h1⟩) = some (w.get ⟨i, h2⟩)) := by
  refine ⟨rfl, rfl, ?_, ?_, ?_, ?_, ?_, ?_⟩
  · intro items h
    show (mapOrFail crossrefMapItem items).getD [] = []
    rw [h]
    rfl
  · intro papers h
    show (mapOrFail semanticMapItem papers).getD [] = []
    rw [h]
    rfl
  · intro items h3
    show ((mapOrFail crossrefMapItem items).getD []).length ≤ 3
    cases hm : mapOrFail crossrefMapItem items with
    | none => simp
    | some w =>
      rw [Option.getD_some, mapOrFail_length hm]
      exact h3
  · intro papers h3
    show ((mapOrFail semanticMapItem papers).getD []).length ≤ 3
    cases hm : mapOrFail semanticMapItem papers with
    | none => simp
    | some w =>
      rw [Option.getD_some, mapOrFail_length hm]
      exact h3
  · intro items w hm
    refine ⟨?_, mapOrFail_length hm, mapOrFail_get hm⟩
    show (mapOrFail crossrefMapItem items).getD [] = w
    rw [hm]
    rfl
  · intro papers w hm
    refine ⟨?_, mapOrFail_length hm, mapOrFail_get hm⟩
    show (mapOrFail semanticMapItem papers).getD [] = w
    rw [hm]
    rfl

/-- C6 witness: a one-item Crossref response maps to one candidate, in
order; a failed Semantic Scholar exchange yields the empty list. -/
theorem c6_witness :
    (crossref_lookup (some [itemA])).length ≤ 3 ∧
    crossref_lookup (some [itemA]) = [candA] ∧
    ([candA] : List Candidate).length = ([itemA] : List CrossrefItem).length ∧
    semantic_lookup none = [] := by
  obtain ⟨h1, h2, h3, h4, h5, h6, h7, h8⟩ := c6_adapters
  exact ⟨h5 [itemA] (by decide), (h7 [itemA] [candA] (by decide)).1,
    (h7 [itemA] [candA] (by decide)).2.1, h2⟩

/-- C7 counterexample: on `"a_b"` the code keeps the underscore (Python's
`\w` includes it), while the claim's "non-alphanumeric, non-whitespace"
class replaces it by a space, so the claim's description differs from the
code. -/
theorem c7_counterexample :
    normalize ['a', '_', 'b'] = ['a', '_', 'b'] ∧
    normalize_spec_alnum ['a', '_', 'b'] = ['a', ' ', 'b'] ∧
    normalize ['a', '_', 'b'] ≠ normalize_spec_alnum ['a', '_', 'b'] :=
  ⟨by decide, by decide, by decide⟩

/-- C7 (amended): for every input string, `normalize` returns the string
obtained by lower-casing the input, replacing every run of characters that
are neither word characters (alphanumeric or underscore) nor whitespace
with a single space, collapsing repeated whitespace to single spaces, and
trimming; for empty or absent input it returns the empty string. -/
theorem c7_amended_normalize (s : Str) : normalize s = normalize_spec_word s := by
  by_cases hs : s = []
  · subst hs
    rfl
  · rw [normalize_of_ne_nil hs]
    unfold normalize_spec_word
    rw [if_neg hs]
    unfold pySplit
    rw [genSplit_map_charSub, genSplit_replaceRuns]

/-- C8: `normalize` is idempotent. -/
theorem c8_normalize_idempotent (s : Str) :
    normalize (normalize s) = normalize s :=
  normalize_idem s

/-- C9: `last_name` and `author_name_score` index the normalized full name
without a guard, so both fail (raise) exactly on names whose normalization
is empty, whatever the author list; under the precondition that the
normalization is non-empty both are total, and `author_name_score` is the
maximum of the three partial-overlap variants over all candidate authors,
or 0 for an empty author list; hence `verify_publication` with a non-empty
pool raises for an empty-normalizing author name. -/
theorem c9_name_guard :
    (∀ full : Str, normalize full = [] → last_name full = none) ∧
    (∀ (pr : SimFn) (full : Str) (authors : List Str), normalize full = [] →
      author_name_score pr full authors = none) ∧
    (∀ full : Str, normalize full ≠ [] → ∃ t, last_name full = some t) ∧
    (∀ (pr : SimFn) (full : Str) (authors : List Str), normalize full ≠ [] →
      ∃ v lastN ini,
        author_name_score pr full authors = some v ∧
        last_name full = some lastN ∧
        (normalize full).head? = some ini ∧
        (authors = [] → v = 0) ∧
        (∀ x ∈ author_variant_scores pr (normalize full) lastN ini authors, x ≤ v) ∧
        (authors ≠ [] →
          v ∈ author_variant_scores pr (normalize full) lastN ini authors)) ∧
    (∀ (pr tsr : SimFn) (cr : Option (List CrossrefItem))
        (sr : Option (List SemanticPaper)) (pt full : Str) (o sc rs : Option Str),
      normalize full = [] → crossref_lookup cr ++ semantic_lookup sr ≠ [] →
      verify_publication pr tsr cr sr pt full o sc rs = none) := by
  refine ⟨?_, ?_, ?_, ?_, ?_⟩
  · intro full h
    exact (last_name_none_iff full).mpr h
  · intro pr full authors h
    exact author_name_score_of_empty authors h
  · intro full h
    exact Option.ne_none_iff_exists'.mp
      (fun hc => h ((last_name_none_iff full).mp hc))
  · intro pr full authors h
    obtain ⟨lastN, ini, hl, hh, heq⟩ := @author_name_score_of_ne pr _ authors h
    refine ⟨_, lastN, ini, heq, hl, hh, ?_, ?_, ?_⟩
    · intro ha
      subst ha
      rfl
    · intro x hx
      exact le_maxOr0 hx
    · intro hne
      refine maxOr0_mem ?_
      cases authors with
      | nil => exact absurd rfl hne
      | cons a0 rest => simp [author_variant_scores]
  · intro pr tsr cr sr pt full o sc rs hempty hne
    cases hcs : crossref_lookup cr ++ semantic_lookup sr with
    | nil => exact absurd hcs hne
    | cons c0 cs0 =>
      have hstep : step pr tsr pt full o sc rs ⟨none, -1, 0, false⟩ c0 = none := by
        unfold step
        rw [author_name_score_of_empty c0.authors hempty]
        rfl
      have hfold : best_fold pr tsr pt full o sc rs ⟨none, -1, 0, false⟩
          (c0 :: cs0) = none := by
        unfold best_fold
        rw [hstep]
      simp only [verify_publication]
      rw [if_neg hne, hcs, hfold]
      rfl

/-- C9 witness: `"!"` normalizes to the empty string, so `last_name`
fails; `"ab"` normalizes non-empty, so it is total; with one candidate and
the name `"!"`, `verify_publication` raises (`none`). -/
theorem c9_witness :
    last_name ['!'] = none ∧
    (∃ t, last_name ['a', 'b'] = some t) ∧
    verify_publication (fun _ _ => 0) (fun _ _ => 0) (some [itemA]) none
      ['t'] ['!'] none none none = none := by
  obtain ⟨h1, h2, h3, h4, h5⟩ := c9_name_guard
  exact ⟨h1 ['!'] (by decide), h3 ['a', 'b'] (by decide),
    h5 (fun _ _ => 0) (fun _ _ => 0) (some [itemA]) none ['t'] ['!']
      none none none (by decide) (by decide)⟩

/-- C10: With an empty fetched publication list the batch run fails (the
CSV field names come from `results[0]` and the summary divides by
`len(results)`), so a report and summary exist only for non-empty
publication lists. -/
theorem c10_empty_batch :
    (∀ (pr tsr : SimFn)
        (env : Str → Option (List CrossrefItem) × Option (List SemanticPaper))
        (an : Str) (o sc rs : Option Str),
      main_report pr tsr env an o sc rs [] = none) ∧
    (∀ (pr tsr : SimFn)
        (env : Str → Option (List CrossrefItem) × Option (List SemanticPaper))
        (an : Str) (o sc rs : Option Str) (pubs : List Str),
      (main_report pr tsr env an o sc rs pubs).isSome = true → pubs ≠ []) := by
  constructor
  · intro pr tsr env an o sc rs
    rfl
  · intro pr tsr env an o sc rs pubs h hnil
    subst hnil
    rw [show main_report pr tsr env an o sc rs [] = none from rfl] at h
    exact absurd h (by simp)

/-- C10 witness: the empty batch fails; a one-publication batch (both
lookups failing) produces a report, so that list is non-empty. -/
theorem c10_witness :
    main_report (fun _ _ => (0 : ℚ)) (fun _ _ => (0 : ℚ)) (fun _ => (none, none))
      ['a'] none none none [] = none ∧
    ([['t']] : List Str) ≠ [] := by
  obtain ⟨h1, h2⟩ := c10_empty_batch
  exact ⟨h1 (fun _ _ => 0) (fun _ _ => 0) (fun _ => (none, none)) ['a'] none none none,
    h2 (fun _ _ => 0) (fun _ _ => 0) (fun _ => (none, none)) ['a'] none none none
      [['t']] rfl⟩

end Scholar
